import Mathlib

/-!
# Verification of the Sudoku CSP solver (`main.py`)

A shallow embedding of the solver's core: board topology (`peers`),
domain-store initialization (`init_domains`), the AC-3 propagator
(`revise`, `ac3`), and the MRV/LCV backtracking search (`backtrack`,
`solve`).  Python dictionaries of sets are modelled as functions
`Cell → Finset ℤ`; in-place mutation is modelled by returning the
mutated object's new value; `deepcopy` is a value copy.  The two
unbounded loops (the AC-3 worklist and the recursive search) are
modelled with an explicit fuel parameter, with theorems showing the
chosen fuel is always sufficient, so the definitions compute by kernel
reduction.
-/

set_option maxHeartbeats 1000000
set_option maxRecDepth 100000

abbrev Cell : Type := Fin 9 × Fin 9

abbrev Domains : Type := Cell → Finset ℤ

/-- The list `self.cells`: the 81 cells in row-major order. -/
def cellsList : List Cell :=
  (List.finRange 9).flatMap fun r => (List.finRange 9).map fun c => (r, c)

/-- Test that `p` is another cell in the same row, column or 3×3 block as `c` — the
membership test of the peer sets built by `_build_peers`. -/
def isPeer (p c : Cell) : Bool :=
  decide (p ≠ c ∧ (p.1 = c.1 ∨ p.2 = c.2 ∨
    ((p.1 : ℕ) / 3 = (c.1 : ℕ) / 3 ∧ (p.2 : ℕ) / 3 = (c.2 : ℕ) / 3)))

/-- From `_build_peers`: the set of other cells sharing a row, column or 3×3 block
with `c` (union of the row, column and block sets, minus the cell itself). -/
def peers (c : Cell) : Finset Cell :=
  Finset.univ.filter fun p => isPeer p c

/-- Iteration order over a cell's peer set (row-major). -/
def peersList (c : Cell) : List Cell :=
  cellsList.filter fun p => isPeer p c

/-- Reading `grid[r][c]` from the input list-of-lists (0 when absent). -/
def gridGet (g : List (List ℤ)) (c : Cell) : ℤ :=
  (g.getD c.1.val []).getD c.2.val 0

/-- The `assert` in `__init__`: the grid must be 9 rows of 9 entries. -/
def gridOk (g : List (List ℤ)) : Bool :=
  g.length == 9 && g.all fun row => row.length == 9

/-- From `_initialize_domains`: a cell with value `v`, `v` truthy and `1 ≤ v ≤ 9`,
gets domain `{v}`; any other cell gets `{1..9}` minus the truthy values
appearing among its peers. -/
def init_domains (g : List (List ℤ)) : Domains := fun c =>
  if gridGet g c ≠ 0 ∧ 1 ≤ gridGet g c ∧ gridGet g c ≤ 9 then {gridGet g c}
  else Finset.Icc (1 : ℤ) 9 \ ((peers c).image (gridGet g)).filter (fun u => u ≠ 0)

/-- From `SudokuCSP.__init__`: the 9×9 shape assertion, then domain building.
An `AssertionError` is modelled as `none`. -/
def SudokuCSP_init (g : List (List ℤ)) : Option Domains :=
  if gridOk g then some (init_domains g) else none

/-- The revise step `revise(domains, xi, xj)`: remove from `domains[xi]` every value `x` such
that `domains[xj]` is the singleton `{x}`; returns whether anything was
removed, together with the new state of the (mutated) `domains` dict. -/
def revise (domains : Domains) (xi xj : Cell) : Bool × Domains :=
  let toRemove := (domains xi).filter fun x => (domains xj).card = 1 ∧ x ∈ domains xj
  if toRemove.Nonempty then
    (true, Function.update domains xi (domains xi \ toRemove))
  else (false, domains)

/-- The arcs `(xk, xi)` for `xk ∈ peers[xi] - {xj}` re-enqueued after a
successful revision. -/
def requeueArcs (xi xj : Cell) : List (Cell × Cell) :=
  (cellsList.filter fun xk => isPeer xk xi && decide (xk ≠ xj)).map
    fun xk => (xk, xi)

/-- The initial worklist of `ac3`: all arcs `(xi, xj)` with `xj` a peer of
`xi`. -/
def initQueue : List (Cell × Cell) :=
  cellsList.flatMap fun xi => (peersList xi).map fun xj => (xi, xj)

/-- Total number of candidate values over all 81 cells. -/
def totalSize (d : Domains) : ℕ := ∑ c : Cell, (d c).card

/-- The `while queue` loop of `ac3`, with explicit fuel.  One unit of fuel is
spent per popped arc; `ac3_fuel_sufficient` below shows the fuel chosen in
`ac3` never runs out, so the base case for exhausted fuel (which mirrors the
empty-queue exit) is never reached. -/
def ac3LoopF : ℕ → Domains → List (Cell × Cell) → Bool × Domains
  | _, d, [] => (true, d)
  | 0, d, _ :: _ => (true, d)
  | fuel + 1, d, (xi, xj) :: rest =>
    match revise d xi xj with
    | (true, d') =>
      if d' xi = ∅ then (false, d')
      else ac3LoopF fuel d' (rest ++ requeueArcs xi xj)
    | (false, d') => ac3LoopF fuel d' rest

/-- Fuel sufficient to drain the worklist from state `(d, q)`. -/
def ac3fuel (d : Domains) (q : List (Cell × Cell)) : ℕ :=
  101 * totalSize d + q.length

/-- The propagator `ac3(domains)`: run the worklist to completion; returns the success flag
and the final state of the (mutated) domains dict. -/
def ac3 (domains : Domains) : Bool × Domains :=
  ac3LoopF (ac3fuel domains initQueue) domains initQueue

/-- The forward-checking loop of `assign_and_propagate`: remove `value` from
each peer's domain in turn, failing on a wipeout. -/
def forward_check (value : ℤ) : List Cell → Domains → Option Domains
  | [], d => some d
  | p :: rest, d =>
    if value ∈ d p then
      if (d p).erase value = ∅ then none
      else forward_check value rest (Function.update d p ((d p).erase value))
    else forward_check value rest d

/-- Python's `deepcopy(domains)`: an independent copy; with value semantics this is the
value itself, and nothing done to the copy can affect the original. -/
def deepcopy (d : Domains) : Domains := d

/-- The method `assign_and_propagate(var, value, domains)`: deep-copy, force
`new_domains[var] = {value}`, forward-check against the peers, then run AC-3;
`None` on any inconsistency. -/
def assign_and_propagate (var : Cell) (value : ℤ) (domains : Domains) :
    Option Domains :=
  let new_domains := Function.update (deepcopy domains) var {value}
  match forward_check value (peersList var) new_domains with
  | none => none
  | some nd =>
    match ac3 nd with
    | (true, nd') => some nd'
    | (false, _) => none

/-- The call `assign_and_propagate` together with the final state of the *caller's*
`domains` object: every mutation in the body targets the deep copy
`new_domains`, never the dict the caller passed in, so the second component
is the unchanged input. -/
def assign_and_propagate_tracked (var : Cell) (value : ℤ) (domains : Domains) :
    Option Domains × Domains :=
  (assign_and_propagate var value domains, domains)

/-- The test `is_solved`: every cell's domain is a singleton. -/
def is_solved (d : Domains) : Bool :=
  cellsList.all fun c => (d c).card == 1

/-- Lexicographic comparison of MRV keys
`(len(domain), -len(peers), (r, c))`, as Python compares the tuples built in
`select_unassigned_variable`. -/
def mrvKeyLe (a b : ℕ × ℤ × ℕ × ℕ) : Bool :=
  if a.1 ≠ b.1 then decide (a.1 < b.1)
  else if a.2.1 ≠ b.2.1 then decide (a.2.1 < b.2.1)
  else if a.2.2.1 ≠ b.2.2.1 then decide (a.2.2.1 < b.2.2.1)
  else decide (a.2.2.2 ≤ b.2.2.2)

/-- The sort key `(len(domains[cell]), -len(peers[cell]), cell)` of
`select_unassigned_variable`. -/
def mrvKey (d : Domains) (c : Cell) : ℕ × ℤ × ℕ × ℕ :=
  ((d c).card, -((peers c).card : ℤ), c.1.val, c.2.val)

/-- The MRV choice `select_unassigned_variable`: among cells with domain size > 1, the one
with the least `(size, -peer-count, cell)` key; `None` when no such cell. -/
def select_unassigned_variable (d : Domains) : Option Cell :=
  ((cellsList.filter fun c => decide (1 < (d c).card)).mergeSort
    fun a b => mrvKeyLe (mrvKey d a) (mrvKey d b)).head?

/-- LCV count: how many of `var`'s peers currently contain `v`. -/
def lcvCount (d : Domains) (var : Cell) (v : ℤ) : ℕ :=
  ((peersList var).filter fun p => decide (v ∈ d p)).length

/-- Lexicographic comparison of LCV keys `(count, val)`. -/
def lcvKeyLe (a b : ℕ × ℤ) : Bool :=
  if a.1 ≠ b.1 then decide (a.1 < b.1) else decide (a.2 ≤ b.2)

/-- The LCV ordering `order_domain_values`: the candidate values of `var` sorted by
`(count, val)`. -/
def order_domain_values (var : Cell) (d : Domains) : List ℤ :=
  ((d var).sort (· ≤ ·)).mergeSort
    fun a b => lcvKeyLe (lcvCount d var a, a) (lcvCount d var b, b)

/-- The `for value in ...` loop body of `backtrack`: try each branch in turn,
returning the first success. -/
def tryList (f : ℤ → Option Domains) : List ℤ → Option Domains
  | [] => none
  | v :: rest =>
    match f v with
    | some r => some r
    | none => tryList f rest

/-- The search `backtrack(domains)`, with fuel bounding the recursion depth.  The
exhausted-fuel base case coincides with the behaviour of a call that does not
recurse (solved ⇒ the assignment, otherwise fail); `backtrackF_fuel_sufficient`
below shows any fuel ≥ the number of undecided cells — in particular 81 —
gives the untruncated result. -/
def backtrackF : ℕ → Domains → Option Domains
  | 0, d => if is_solved d then some d else none
  | fuel + 1, d =>
    if is_solved d then some d
    else
      match select_unassigned_variable d with
      | none => none
      | some var =>
        tryList
          (fun v =>
            match assign_and_propagate var v d with
            | none => none
            | some nd => backtrackF fuel nd)
          (order_domain_values var d)

/-- The search `backtrack` at its guaranteed-sufficient depth bound of 81. -/
def backtrack (d : Domains) : Option Domains := backtrackF 81 d

/-- The solved-grid read-out at the end of `solve`: the unique candidate of a
singleton domain, `0` otherwise ("should not happen"). -/
def gridOfSol (sol : Domains) : Cell → ℤ := fun c =>
  if (sol c).card = 1 then ((sol c).sort (· ≤ ·)).headD 0 else 0

/-- The body of `solve`: AC-3 on a copy of the initial domains, then
backtracking, then grid read-out. -/
def solveD (d0 : Domains) : Option (Cell → ℤ) :=
  match ac3 (deepcopy d0) with
  | (true, d1) =>
    match backtrack d1 with
    | none => none
    | some sol => some (gridOfSol sol)
  | (false, _) => none

/-- Constructing `SudokuCSP(grid)` and calling `solve()`. -/
def solve (g : List (List ℤ)) : Option (Cell → ℤ) :=
  match SudokuCSP_init g with
  | none => none
  | some d0 => solveD d0

/-- Number of cells whose domain still has more than one candidate. -/
def hardCells (d : Domains) : ℕ :=
  (cellsList.filter fun c => decide (1 < (d c).card)).length

/-! ## Basic facts about the board topology -/

theorem mem_cellsList (c : Cell) : c ∈ cellsList := by
  simp only [cellsList, List.mem_flatMap, List.mem_map]
  exact ⟨c.1, List.mem_finRange _, c.2, List.mem_finRange _, rfl⟩

theorem mem_peers {p c : Cell} : p ∈ peers c ↔ isPeer p c = true := by
  simp [peers]

theorem mem_peersList {p c : Cell} : p ∈ peersList c ↔ isPeer p c = true := by
  simp [peersList, mem_cellsList]

theorem isPeer_symm : ∀ p c : Cell, isPeer p c = isPeer c p := by decide

theorem isPeer_irrefl (c : Cell) : isPeer c c = false := by
  simp [isPeer]

theorem peers_card (c : Cell) : (peers c).card = 20 := by
  revert c; decide

theorem gridOk_iff {g : List (List ℤ)} :
    gridOk g = true ↔ (g.length = 9 ∧ ∀ row ∈ g, row.length = 9) := by
  simp [gridOk]

/-! ## Easy claims: construction-time behaviour -/

/-- C7: constructing the solver from a grid that is not exactly 9 rows of 9
entries fails at construction time (the `assert`, modelled as `none`), and
construction succeeds for every exactly-9×9 grid. -/
theorem claim_C7_construction_shape (g : List (List ℤ)) :
    (SudokuCSP_init g = none ↔ ¬ (g.length = 9 ∧ ∀ row ∈ g, row.length = 9)) ∧
    (SudokuCSP_init g = some (init_domains g) ↔
      (g.length = 9 ∧ ∀ row ∈ g, row.length = 9)) := by
  rw [SudokuCSP_init]
  by_cases h : gridOk g = true
  · obtain ⟨h1, h2⟩ := gridOk_iff.mp h
    rw [if_pos h]
    refine ⟨⟨fun hc => (Option.some_ne_none _ hc).elim, fun hc => (hc ⟨h1, h2⟩).elim⟩,
      ⟨fun _ => ⟨h1, h2⟩, fun _ => rfl⟩⟩
  · have h3 : ¬(g.length = 9 ∧ ∀ row ∈ g, row.length = 9) := fun hc => h (gridOk_iff.mpr hc)
    rw [if_neg h]
    exact ⟨⟨fun _ => h3, fun _ => rfl⟩,
      ⟨fun hc => Option.noConfusion hc, fun hc => (h3 hc).elim⟩⟩

theorem filter_image_comm (s : Finset Cell) (f : Cell → ℤ) :
    ((s.image f).filter fun u => u ≠ 0) =
      (s.filter fun p => f p ≠ 0).image f := by
  ext x
  simp only [Finset.mem_filter, Finset.mem_image]
  constructor
  · rintro ⟨⟨p, hp, rfl⟩, hx⟩
    exact ⟨p, ⟨hp, hx⟩, rfl⟩
  · rintro ⟨p, ⟨hp, hx⟩, rfl⟩
    exact ⟨⟨p, hp, rfl⟩, hx⟩

/-- C4: the initial domain of a clue cell (value 1–9) is the singleton of the
clue; the initial domain of a blank cell (value 0) is `{1..9}` minus the
nonzero values among that cell's 20 peers. -/
theorem claim_C4_initial_domains (g : List (List ℤ)) (hok : gridOk g = true)
    (hrange : ∀ c : Cell, 0 ≤ gridGet g c ∧ gridGet g c ≤ 9) (c : Cell) :
    (peers c).card = 20 ∧
    (1 ≤ gridGet g c ∧ gridGet g c ≤ 9 → init_domains g c = {gridGet g c}) ∧
    (gridGet g c = 0 →
      init_domains g c =
        Finset.Icc (1 : ℤ) 9 \
          ((peers c).filter fun p => gridGet g p ≠ 0).image (gridGet g)) := by
  refine ⟨peers_card c, ?_, ?_⟩
  · intro hv
    simp only [init_domains]
    rw [if_pos ⟨by omega, hv⟩]
  · intro hv
    simp only [init_domains]
    rw [if_neg (by omega), filter_image_comm]

/-- C10: a 9×9 grid cell holding an out-of-range value (e.g. `10` or `-3`)
raises no error — only the shape is checked — and is treated as a blank cell:
its domain is `{1..9}` minus its peers' values (subtracting an out-of-range
peer value is a no-op, so only in-range peer values matter). -/
theorem claim_C10_out_of_range (g : List (List ℤ)) (hok : gridOk g = true)
    (c : Cell) (hout : gridGet g c < 0 ∨ 9 < gridGet g c) :
    SudokuCSP_init g = some (init_domains g) ∧
    init_domains g c =
      Finset.Icc (1 : ℤ) 9 \
        ((peers c).filter fun p => 1 ≤ gridGet g p ∧ gridGet g p ≤ 9).image
          (gridGet g) := by
  constructor
  · rw [SudokuCSP_init, if_pos hok]
  · simp only [init_domains]
    rw [if_neg (by omega)]
    ext x
    simp only [Finset.mem_sdiff, Finset.mem_filter, Finset.mem_image,
      Finset.mem_Icc]
    constructor
    · rintro ⟨hx, hni⟩
      refine ⟨hx, ?_⟩
      rintro ⟨p, ⟨hp, hpr⟩, rfl⟩
      exact hni ⟨⟨p, hp, rfl⟩, by omega⟩
    · rintro ⟨hx, hni⟩
      refine ⟨hx, ?_⟩
      rintro ⟨⟨p, hp, rfl⟩, hnz⟩
      exact hni ⟨p, ⟨hp, by constructor <;> omega⟩, rfl⟩

/-- C5: the call `assign_and_propagate` never mutates the caller's assignment: every
write in its body targets the deep copy `new_domains`, so the caller's
`domains` object is returned unchanged whatever the outcome, and a failed
branch in `backtrack` leaves the parent's assignment intact. -/
theorem claim_C5_frame (var : Cell) (value : ℤ) (d : Domains) :
    (assign_and_propagate_tracked var value d).2 = d ∧
    deepcopy d = d ∧
    (assign_and_propagate_tracked var value d).1 =
      assign_and_propagate var value d :=
  ⟨rfl, rfl, rfl⟩

/-! ## The revise rule -/

theorem eq_singleton_iff_card_mem {s : Finset ℤ} {x : ℤ} :
    s = {x} ↔ s.card = 1 ∧ x ∈ s := by
  constructor
  · rintro rfl; simp
  · rintro ⟨h1, h2⟩
    obtain ⟨a, rfl⟩ := Finset.card_eq_one.mp h1
    rw [Finset.mem_singleton.mp h2]

theorem revise_snd_other {d : Domains} {xi xj c : Cell} (hc : c ≠ xi) :
    (revise d xi xj).2 c = d c := by
  simp only [revise]
  split
  · simp [Function.update_apply, hc]
  · rfl

theorem mem_revise_self {d : Domains} {xi xj : Cell} {x : ℤ} :
    x ∈ (revise d xi xj).2 xi ↔ x ∈ d xi ∧ ¬ d xj = {x} := by
  simp only [revise]
  split
  · next h =>
    simp only [Function.update_same, Finset.mem_sdiff, Finset.mem_filter,
      eq_singleton_iff_card_mem]
    tauto
  · next h =>
    rw [Finset.not_nonempty_iff_eq_empty, Finset.filter_eq_empty_iff] at h
    simp only [eq_singleton_iff_card_mem]
    exact ⟨fun hx => ⟨hx, h hx⟩, fun hx => hx.1⟩

theorem revise_snd_subset (d : Domains) (xi xj c : Cell) :
    (revise d xi xj).2 c ⊆ d c := by
  by_cases hc : c = xi
  · subst hc
    intro x hx
    exact (mem_revise_self.mp hx).1
  · rw [revise_snd_other hc]

theorem revise_false_eq {d : Domains} {xi xj : Cell} {d' : Domains}
    (h : revise d xi xj = (false, d')) : d' = d := by
  simp only [revise] at h
  split at h
  · exact absurd (congrArg Prod.fst h) (by simp)
  · exact (congrArg Prod.snd h).symm

theorem totalSize_update_of_lt {d : Domains} {c : Cell} {s : Finset ℤ}
    (h : s.card < (d c).card) :
    totalSize (Function.update d c s) < totalSize d := by
  unfold totalSize
  rw [← Finset.add_sum_erase _ (fun x => ((Function.update d c s) x).card)
      (Finset.mem_univ c),
    ← Finset.add_sum_erase _ (fun x => (d x).card) (Finset.mem_univ c)]
  have he : ∑ x ∈ Finset.univ.erase c, ((Function.update d c s) x).card
      = ∑ x ∈ Finset.univ.erase c, (d x).card := by
    refine Finset.sum_congr rfl fun x hx => ?_
    rw [Function.update_noteq (Finset.mem_erase.mp hx).1]
  rw [he, Function.update_same]
  exact Nat.add_lt_add_right h _

theorem revise_true_totalSize {d : Domains} {xi xj : Cell} {d' : Domains}
    (h : revise d xi xj = (true, d')) : totalSize d' < totalSize d := by
  simp only [revise] at h
  split at h
  · next hne =>
    have hd' := (congrArg Prod.snd h).symm
    simp only at hd'
    subst hd'
    refine totalSize_update_of_lt (Finset.card_lt_card ?_)
    exact Finset.sdiff_ssubset (Finset.filter_subset _ _) hne
  · exact absurd (congrArg Prod.fst h) (by simp)

/-! ## Unfolding equations for the AC-3 worklist loop -/

theorem ac3LoopF_nil (fuel : ℕ) (d : Domains) : ac3LoopF fuel d [] = (true, d) := by
  cases fuel <;> rfl

theorem ac3LoopF_zero (d : Domains) (q : List (Cell × Cell)) :
    ac3LoopF 0 d q = (true, d) := by
  cases q <;> rfl

theorem ac3LoopF_cons (fuel : ℕ) (d : Domains) (xi xj : Cell)
    (rest : List (Cell × Cell)) :
    ac3LoopF (fuel + 1) d ((xi, xj) :: rest) =
      match revise d xi xj with
      | (true, d') =>
        if d' xi = ∅ then (false, d')
        else ac3LoopF fuel d' (rest ++ requeueArcs xi xj)
      | (false, d') => ac3LoopF fuel d' rest := rfl

theorem ac3LoopF_cons_true {d : Domains} {xi xj : Cell} {d' : Domains}
    (h : revise d xi xj = (true, d')) (fuel : ℕ) (rest : List (Cell × Cell)) :
    ac3LoopF (fuel + 1) d ((xi, xj) :: rest) =
      if d' xi = ∅ then (false, d')
      else ac3LoopF fuel d' (rest ++ requeueArcs xi xj) := by
  rw [ac3LoopF_cons, h]

theorem ac3LoopF_cons_false {d : Domains} {xi xj : Cell} {d' : Domains}
    (h : revise d xi xj = (false, d')) (fuel : ℕ) (rest : List (Cell × Cell)) :
    ac3LoopF (fuel + 1) d ((xi, xj) :: rest) = ac3LoopF fuel d' rest := by
  rw [ac3LoopF_cons, h]

/-! ## Invariants of the AC-3 loop -/

theorem revise_true_nonempty {d : Domains} {xi xj : Cell} {d' : Domains}
    (h : revise d xi xj = (true, d')) : (d xi).Nonempty := by
  simp only [revise] at h
  split at h
  · next hne =>
    obtain ⟨x, hx⟩ := hne
    exact ⟨x, (Finset.mem_filter.mp hx).1⟩
  · exact absurd (congrArg Prod.fst h) (by simp)

theorem revise_pair_subset {d : Domains} {xi xj : Cell} {d' : Domains}
    (h : revise d xi xj = (b, d')) (c : Cell) : d' c ⊆ d c := by
  have hs := revise_snd_subset d xi xj c
  rw [h] at hs
  exact hs

theorem ac3LoopF_snd_subset :
    ∀ (fuel : ℕ) (d : Domains) (q : List (Cell × Cell)) (c : Cell),
      (ac3LoopF fuel d q).2 c ⊆ d c := by
  intro fuel
  induction fuel with
  | zero =>
    intro d q c
    rw [ac3LoopF_zero]
  | succ n ih =>
    intro d q c
    match q with
    | [] =>
      rw [ac3LoopF_nil]
    | (xi, xj) :: rest =>
      rcases hrev : revise d xi xj with ⟨b, d'⟩
      cases b
      · rw [ac3LoopF_cons_false hrev, revise_false_eq hrev]
        exact ih d rest c
      · rw [ac3LoopF_cons_true hrev]
        by_cases hxi : d' xi = ∅
        · rw [if_pos hxi]
          exact revise_pair_subset hrev c
        · rw [if_neg hxi]
          exact (ih d' _ c).trans (revise_pair_subset hrev c)

theorem ac3LoopF_false_wipeout :
    ∀ (fuel : ℕ) (d : Domains) (q : List (Cell × Cell)),
      (ac3LoopF fuel d q).1 = false →
      ∃ c, (ac3LoopF fuel d q).2 c = ∅ ∧ d c ≠ ∅ := by
  intro fuel
  induction fuel with
  | zero =>
    intro d q h
    rw [ac3LoopF_zero] at h
    exact absurd h (by simp)
  | succ n ih =>
    intro d q h
    match q with
    | [] =>
      rw [ac3LoopF_nil] at h
      exact absurd h (by simp)
    | (xi, xj) :: rest =>
      rcases hrev : revise d xi xj with ⟨b, d'⟩
      cases b
      · rw [ac3LoopF_cons_false hrev, revise_false_eq hrev] at h ⊢
        exact ih d rest h
      · rw [ac3LoopF_cons_true hrev] at h ⊢
        by_cases hxi : d' xi = ∅
        · rw [if_pos hxi] at h ⊢
          refine ⟨xi, hxi, ?_⟩
          rw [← Finset.nonempty_iff_ne_empty]
          exact revise_true_nonempty hrev
        · rw [if_neg hxi] at h ⊢
          obtain ⟨c, hc, hcne⟩ := ih d' _ h
          refine ⟨c, hc, fun hdc => hcne ?_⟩
          exact Finset.subset_empty.mp (hdc ▸ revise_pair_subset hrev c)

theorem ac3LoopF_true_empty :
    ∀ (fuel : ℕ) (d : Domains) (q : List (Cell × Cell)) (c : Cell),
      (ac3LoopF fuel d q).1 = true → (ac3LoopF fuel d q).2 c = ∅ → d c = ∅ := by
  intro fuel
  induction fuel with
  | zero =>
    intro d q c _ h2
    rw [ac3LoopF_zero] at h2
    exact h2
  | succ n ih =>
    intro d q c h1 h2
    match q with
    | [] =>
      rw [ac3LoopF_nil] at h2
      exact h2
    | (xi, xj) :: rest =>
      rcases hrev : revise d xi xj with ⟨b, d'⟩
      cases b
      · rw [ac3LoopF_cons_false hrev, revise_false_eq hrev] at h1 h2
        exact ih d rest c h1 h2
      · rw [ac3LoopF_cons_true hrev] at h1 h2
        by_cases hxi : d' xi = ∅
        · rw [if_pos hxi] at h1
          exact absurd h1 (by simp)
        · rw [if_neg hxi] at h1 h2
          have hd' := ih d' _ c h1 h2
          by_cases hc : c = xi
          · subst hc
            exact absurd hd' hxi
          · have := @revise_snd_other d xi xj c hc
            rw [hrev] at this
            rw [← this]
            exact hd'

/-- C3: the step `revise` removes a value `x` from `xi`'s domain exactly when the
peer `xj`'s domain is the singleton `{x}` (a peer domain with two or more
values never causes pruning), and `ac3` returns failure exactly when some
cell's domain became empty during the run (an initially-empty domain does
not count, and does not trigger failure). -/
theorem claim_C3_revise_and_wipeout :
    (∀ (d : Domains) (xi xj : Cell) (x : ℤ), x ∈ d xi →
      (x ∉ (revise d xi xj).2 xi ↔ d xj = {x})) ∧
    ∀ d : Domains, (ac3 d).1 = false ↔ ∃ c, (ac3 d).2 c = ∅ ∧ d c ≠ ∅ := by
  constructor
  · intro d xi xj x hx
    rw [mem_revise_self]
    constructor
    · intro h
      by_contra hne
      exact h ⟨hx, hne⟩
    · rintro h ⟨_, hne⟩
      exact hne h
  · intro d
    constructor
    · intro h
      exact ac3LoopF_false_wipeout _ _ _ h
    · rintro ⟨c, hc, hne⟩
      cases hb : (ac3 d).1
      · rfl
      · exact absurd (ac3LoopF_true_empty _ _ _ c hb hc) hne

/-- A constant assignment used to instantiate universally quantified claims. -/
def exConst : Domains := fun _ => ({1} : Finset ℤ)

/-- Witness for C3 at a concrete assignment: with every domain `{1}`, the
candidate `1` is removed from `(0,0)` by revising against `(0,1)`. -/
theorem claim_C3_witness :
    (1 : ℤ) ∉
        (revise exConst ((0 : Fin 9), (0 : Fin 9)) ((0 : Fin 9), (1 : Fin 9))).2
          ((0 : Fin 9), (0 : Fin 9)) ↔
      exConst ((0 : Fin 9), (1 : Fin 9)) = {1} :=
  claim_C3_revise_and_wipeout.1 exConst _ _ 1 (by decide)

/-! ## Termination of the AC-3 worklist (fuel independence) -/

theorem cellsList_length : cellsList.length = 81 := by decide

theorem requeueArcs_length_le (xi xj : Cell) : (requeueArcs xi xj).length ≤ 81 := by
  rw [requeueArcs, List.length_map]
  calc (cellsList.filter _).length ≤ cellsList.length := List.length_filter_le _ _
    _ = 81 := cellsList_length

theorem ac3LoopF_fuel_stable :
    ∀ (f : ℕ), ∀ (g : ℕ) (d : Domains) (q : List (Cell × Cell)),
      101 * totalSize d + q.length ≤ f → 101 * totalSize d + q.length ≤ g →
      ac3LoopF f d q = ac3LoopF g d q := by
  intro f
  induction f using Nat.strong_induction_on with
  | _ f ih =>
    intro g d q hf hg
    match q with
    | [] => rw [ac3LoopF_nil, ac3LoopF_nil]
    | (xi, xj) :: rest =>
      rw [List.length_cons] at hf hg
      match f, g with
      | 0, _ => omega
      | _ + 1, 0 => omega
      | f' + 1, g' + 1 =>
        rcases hrev : revise d xi xj with ⟨b, d'⟩
        cases b
        · rw [ac3LoopF_cons_false hrev, ac3LoopF_cons_false hrev,
            revise_false_eq hrev]
          exact ih f' (by omega) g' d rest (by omega) (by omega)
        · rw [ac3LoopF_cons_true hrev, ac3LoopF_cons_true hrev]
          by_cases hxi : d' xi = ∅
          · rw [if_pos hxi, if_pos hxi]
          · rw [if_neg hxi, if_neg hxi]
            have hT : totalSize d' < totalSize d := revise_true_totalSize hrev
            have hreq : (requeueArcs xi xj).length ≤ 81 := requeueArcs_length_le xi xj
            have hlen : (rest ++ requeueArcs xi xj).length
                = rest.length + (requeueArcs xi xj).length := List.length_append _ _
            refine ih f' (by omega) g' d' (rest ++ requeueArcs xi xj) ?_ ?_ <;>
              rw [hlen] <;> omega

theorem totalSize_le_of_subrange {d : Domains}
    (h : ∀ c, d c ⊆ Finset.Icc (1 : ℤ) 9) : totalSize d ≤ 81 * 9 := by
  have : ∀ c : Cell, (d c).card ≤ 9 := fun c => by
    have := Finset.card_le_card (h c)
    simpa using this
  calc totalSize d ≤ ∑ _c : Cell, 9 := Finset.sum_le_sum fun c _ => this c
    _ = 81 * 9 := by simp [Finset.card_univ]

/-- C8: the AC-3 worklist loop terminates on every assignment with a bounded
amount of work: any fuel of at least `101 · totalSize + |initial queue|`
(each successful revision strictly shrinks the total domain size, and each
re-enqueue adds at most 81 arcs) yields the same, completed run; domains only
shrink, and the total candidate count is at most 81·9 for subsets of 1..9. -/
theorem claim_C8_ac3_terminates (d : Domains) (fuel : ℕ)
    (h : 101 * totalSize d + initQueue.length ≤ fuel) :
    ac3LoopF fuel d initQueue = ac3 d ∧
    (∀ c, (ac3 d).2 c ⊆ d c) ∧
    ((∀ c, d c ⊆ Finset.Icc (1 : ℤ) 9) → totalSize d ≤ 81 * 9) := by
  refine ⟨?_, fun c => ac3LoopF_snd_subset _ _ _ c, totalSize_le_of_subrange⟩
  exact ac3LoopF_fuel_stable fuel (ac3fuel d initQueue) d initQueue h le_rfl

/-- Witness for C8: the loop at fuel 20000 on the all-`{1}` assignment agrees
with the canonical run. -/
theorem claim_C8_witness :
    ac3LoopF 20000 exConst initQueue = ac3 exConst ∧
    (∀ c, (ac3 exConst).2 c ⊆ exConst c) ∧
    ((∀ c, exConst c ⊆ Finset.Icc (1 : ℤ) 9) → totalSize exConst ≤ 81 * 9) :=
  claim_C8_ac3_terminates exConst 20000 (by decide)

/-! ## Arc consistency at successful termination -/

/-- Arc `(xi, xj)` can still be revised: some candidate of `xi` is the value
of a peer `xj` whose domain has collapsed to a singleton. -/
def revisable (d : Domains) (xi xj : Cell) : Prop :=
  ∃ x ∈ d xi, d xj = {x}

/-- No arc between peers can be revised. -/
def arcConsistent (d : Domains) : Prop :=
  ∀ xi xj : Cell, isPeer xj xi = true → ¬ revisable d xi xj

theorem isPeer_ne {p c : Cell} (h : isPeer p c = true) : p ≠ c := by
  simp only [isPeer, decide_eq_true_eq] at h
  exact h.1

theorem revise_fst_true_iff {d : Domains} {xi xj : Cell} :
    (revise d xi xj).1 = true ↔ revisable d xi xj := by
  simp only [revise]
  split
  · next h =>
    constructor
    · intro _
      obtain ⟨x, hx⟩ := h
      rw [Finset.mem_filter] at hx
      exact ⟨x, hx.1, eq_singleton_iff_card_mem.mpr hx.2⟩
    · intro _
      rfl
  · next h =>
    constructor
    · intro hft
      simp at hft
    · rintro ⟨x, hx, hs⟩
      exact absurd ⟨x, Finset.mem_filter.mpr ⟨hx, eq_singleton_iff_card_mem.mp hs⟩⟩ h

theorem revise_pair_other {d : Domains} {xi xj : Cell} {b : Bool} {d' : Domains}
    (h : revise d xi xj = (b, d')) {c : Cell} (hc : c ≠ xi) : d' c = d c := by
  have := @revise_snd_other d xi xj c hc
  rw [h] at this
  exact this

/-- From a successful revision: the pruned peer value `u` — `d xj = {u}`,
`u ∈ d xi`, and `u` is no longer in `d' xi`. -/
theorem revise_true_spec {d : Domains} {xi xj : Cell} {d' : Domains}
    (h : revise d xi xj = (true, d')) :
    ∃ u, d xj = {u} ∧ u ∈ d xi ∧ u ∉ d' xi := by
  have hrev : revisable d xi xj := by
    rw [← revise_fst_true_iff, h]
  obtain ⟨u, hu, hs⟩ := hrev
  refine ⟨u, hs, hu, ?_⟩
  intro hmem
  have := @mem_revise_self d xi xj u
  rw [h] at this
  exact (this.mp hmem).2 hs

theorem mem_requeueArcs {a b xi xj : Cell} :
    (a, b) ∈ requeueArcs xi xj ↔ b = xi ∧ isPeer a xi = true ∧ a ≠ xj := by
  simp only [requeueArcs, List.mem_map, List.mem_filter, Bool.and_eq_true,
    decide_eq_true_eq, Prod.mk.injEq]
  constructor
  · rintro ⟨xk, ⟨_, hp, hne⟩, rfl, rfl⟩
    exact ⟨rfl, hp, hne⟩
  · rintro ⟨rfl, hp, hne⟩
    exact ⟨a, ⟨mem_cellsList a, hp, hne⟩, rfl, rfl⟩

theorem mem_initQueue {a b : Cell} :
    (a, b) ∈ initQueue ↔ isPeer b a = true := by
  simp only [initQueue, List.mem_flatMap, List.mem_map, Prod.mk.injEq]
  constructor
  · rintro ⟨xi, _, xj, hj, rfl, rfl⟩
    exact mem_peersList.mp hj
  · intro h
    exact ⟨a, mem_cellsList a, b, mem_peersList.mpr h, rfl, rfl⟩

/-- Worklist invariant: if every arc in the queue joins peers and every
currently revisable arc is in the queue, then a successful run ends
arc-consistent. -/
theorem ac3LoopF_arcConsistent :
    ∀ (fuel : ℕ), ∀ (d : Domains) (q : List (Cell × Cell)),
      101 * totalSize d + q.length ≤ fuel →
      (∀ a b : Cell, (a, b) ∈ q → isPeer b a = true) →
      (∀ a b : Cell, isPeer b a = true → revisable d a b → (a, b) ∈ q) →
      (ac3LoopF fuel d q).1 = true → arcConsistent (ac3LoopF fuel d q).2 := by
  intro fuel
  induction fuel using Nat.strong_induction_on with
  | _ fuel ih =>
    intro d q hμ hI1 hI2 hok
    match q with
    | [] =>
      rw [ac3LoopF_nil]
      intro a b hab hrev
      exact absurd (hI2 a b hab hrev) (List.not_mem_nil _)
    | (xi, xj) :: rest =>
      rw [List.length_cons] at hμ
      match fuel with
      | 0 => omega
      | fuel + 1 =>
        have hxji : isPeer xj xi = true := hI1 xi xj (List.mem_cons_self _ _)
        have hxj_ne : xj ≠ xi := isPeer_ne hxji
        rcases hrev : revise d xi xj with ⟨b, d'⟩
        cases b
        · -- no revision: domains unchanged, drop the arc
          rw [ac3LoopF_cons_false hrev] at hok ⊢
          rw [revise_false_eq hrev] at hok ⊢
          refine ih fuel (by omega) d rest (by omega)
            (fun a b hab => hI1 a b (List.mem_cons_of_mem _ hab)) ?_ hok
          intro a b hab hr
          rcases List.mem_cons.mp (hI2 a b hab hr) with heq | hmem
          · -- the popped arc itself cannot be revisable: revise said false
            exfalso
            have hflag : (revise d xi xj).1 = true := by
              rw [revise_fst_true_iff]
              rw [Prod.mk.injEq] at heq
              obtain ⟨h1, h2⟩ := heq
              subst h1
              subst h2
              exact hr
            rw [hrev] at hflag
            exact Bool.false_ne_true hflag
          · exact hmem
        · -- revision happened
          rw [ac3LoopF_cons_true hrev] at hok ⊢
          obtain ⟨u, hxju, huxi, hund⟩ := revise_true_spec hrev
          by_cases hxi : d' xi = ∅
          · rw [if_pos hxi] at hok
            exact absurd hok (by simp)
          · rw [if_neg hxi] at hok ⊢
            have hT : totalSize d' < totalSize d := revise_true_totalSize hrev
            have hreq : (requeueArcs xi xj).length ≤ 81 := requeueArcs_length_le xi xj
            have hlen : (rest ++ requeueArcs xi xj).length
                = rest.length + (requeueArcs xi xj).length := List.length_append _ _
            have hd'xj : d' xj = d xj := revise_pair_other hrev hxj_ne
            -- the skipped reverse arc (xj, xi) is not revisable after the prune
            have hskip : ¬ revisable d' xj xi := by
              rintro ⟨x, hxmem, hxs⟩
              rw [hd'xj, hxju, Finset.mem_singleton] at hxmem
              subst hxmem
              apply hund
              rw [hxs]
              exact Finset.mem_singleton_self _
            refine ih fuel (by omega) d' (rest ++ requeueArcs xi xj)
              (by rw [hlen]; omega) ?_ ?_ hok
            · intro a b hab
              rcases List.mem_append.mp hab with hab | hab
              · exact hI1 a b (List.mem_cons_of_mem _ hab)
              · obtain ⟨rfl, hp, _⟩ := mem_requeueArcs.mp hab
                rw [isPeer_symm]
                exact hp
            · intro a b hba hr
              by_cases hbxi : b = xi
              · subst hbxi
                by_cases haxj : a = xj
                · subst haxj
                  exact absurd hr hskip
                · refine List.mem_append.mpr (Or.inr ?_)
                  rw [mem_requeueArcs]
                  rw [isPeer_symm] at hba
                  exact ⟨rfl, hba, haxj⟩
              · have hdb : d' b = d b := revise_pair_other hrev hbxi
                have hrd : revisable d a b := by
                  obtain ⟨x, hx, hs⟩ := hr
                  exact ⟨x, revise_pair_subset hrev a hx, hdb.symm.trans hs⟩
                rcases List.mem_cons.mp (hI2 a b hba hrd) with heq | hmem
                · -- the popped arc again: (a, b) = (xi, xj) is impossible,
                  -- the pruned value u would still be a candidate of xi
                  exfalso
                  rw [Prod.mk.injEq] at heq
                  obtain ⟨h1, h2⟩ := heq
                  obtain ⟨x, hx, hs⟩ := hr
                  have hx' : x ∈ d' xi := h1 ▸ hx
                  have hs' : d xj = {x} := by
                    rw [← h2]
                    exact hdb.symm.trans hs
                  have hxu : x = u := Finset.singleton_injective (hs'.symm.trans hxju)
                  exact hund (hxu ▸ hx')
                · exact List.mem_append.mpr (Or.inl hmem)

theorem ac3_success_arcConsistent {d : Domains} (h : (ac3 d).1 = true) :
    arcConsistent (ac3 d).2 := by
  refine ac3LoopF_arcConsistent (ac3fuel d initQueue) d initQueue le_rfl ?_ ?_ h
  · intro a b hab
    exact mem_initQueue.mp hab
  · intro a b hba _
    exact mem_initQueue.mpr hba

/-- On an arc-consistent assignment the worklist drains without any
revision: every popped arc is inert. -/
theorem ac3LoopF_noop :
    ∀ (fuel : ℕ) (d : Domains) (q : List (Cell × Cell)),
      (∀ a b : Cell, (a, b) ∈ q → isPeer b a = true) →
      arcConsistent d → ac3LoopF fuel d q = (true, d) := by
  intro fuel
  induction fuel with
  | zero =>
    intro d q _ _
    rw [ac3LoopF_zero]
  | succ n ih =>
    intro d q hI1 hac
    match q with
    | [] => rw [ac3LoopF_nil]
    | (xi, xj) :: rest =>
      rcases hrev : revise d xi xj with ⟨b, d'⟩
      cases b
      · rw [ac3LoopF_cons_false hrev, revise_false_eq hrev]
        exact ih d rest (fun a b hab => hI1 a b (List.mem_cons_of_mem _ hab)) hac
      · exfalso
        have hflag : (revise d xi xj).1 = true := by rw [hrev]
        rw [revise_fst_true_iff] at hflag
        exact hac xi xj (hI1 xi xj (List.mem_cons_self _ _)) hflag

theorem ac3_of_arcConsistent {d : Domains} (h : arcConsistent d) :
    ac3 d = (true, d) :=
  ac3LoopF_noop _ d initQueue (fun a b hab => mem_initQueue.mp hab) h

/-- The domains used to falsify idempotence of `ac3`: the first popped arc
`((0,0),(0,1))` wipes out cell `(0,0)` (both domains are `{1}`), so the run
aborts leaving every other arc unprocessed; a second run then prunes
further and succeeds. -/
def ex6 : Domains := fun c =>
  if c = ((0 : Fin 9), (0 : Fin 9)) ∨ c = ((0 : Fin 9), (1 : Fin 9)) then {1}
  else Finset.Icc (1 : ℤ) 9

/-- Counterexample to C6 as stated: running `ac3` twice is not the same as
running it once for every assignment — on `ex6` the first run fails but the
second run (on the first run's output) succeeds. -/
theorem claim_C6_counterexample : (ac3 (ac3 ex6).2).1 ≠ (ac3 ex6).1 := by decide

/-- C6 (amended): the propagator `ac3` is idempotent on every assignment on which it
*succeeds*: a successful run ends in an arc-consistent fixpoint, so a second
run removes nothing and returns the same success flag and the same domains.
(When the first run fails it aborts mid-queue, and a second run may still
shrink domains or even succeed — see the counterexample.) -/
theorem claim_C6_idempotent_on_success (d : Domains) (h : (ac3 d).1 = true) :
    ac3 (ac3 d).2 = (true, (ac3 d).2) :=
  ac3_of_arcConsistent (ac3_success_arcConsistent h)

/-- The full-domain assignment: no singleton anywhere, so `ac3` succeeds
without pruning. -/
def exFull : Domains := fun _ => Finset.Icc (1 : ℤ) 9

/-- Witness for the amended C6 at a concrete successful run. -/
theorem claim_C6_witness : ac3 (ac3 exFull).2 = (true, (ac3 exFull).2) :=
  claim_C6_idempotent_on_success exFull (by decide)

/-- A well-formed 9×9 puzzle (0 = blank) used to instantiate claims. -/
def gPuzzle : List (List ℤ) :=
  [[5, 3, 0, 0, 7, 0, 0, 0, 0],
   [6, 0, 0, 1, 9, 5, 0, 0, 0],
   [0, 9, 8, 0, 0, 0, 0, 6, 0],
   [8, 0, 0, 0, 6, 0, 0, 0, 3],
   [4, 0, 0, 8, 0, 3, 0, 0, 1],
   [7, 0, 0, 0, 2, 0, 0, 0, 6],
   [0, 0, 0, 0, 8, 0, 0, 0, 0],
   [0, 6, 0, 0, 0, 0, 2, 8, 0],
   [0, 0, 0, 0, 0, 0, 0, 0, 0]]

/-- Witness for C4 at the blank cell `(0,2)` of a concrete puzzle. -/
theorem claim_C4_witness :
    (peers ((0 : Fin 9), (2 : Fin 9))).card = 20 ∧
    (1 ≤ gridGet gPuzzle ((0 : Fin 9), (2 : Fin 9)) ∧
        gridGet gPuzzle ((0 : Fin 9), (2 : Fin 9)) ≤ 9 →
      init_domains gPuzzle ((0 : Fin 9), (2 : Fin 9)) =
        {gridGet gPuzzle ((0 : Fin 9), (2 : Fin 9))}) ∧
    (gridGet gPuzzle ((0 : Fin 9), (2 : Fin 9)) = 0 →
      init_domains gPuzzle ((0 : Fin 9), (2 : Fin 9)) =
        Finset.Icc (1 : ℤ) 9 \
          ((peers ((0 : Fin 9), (2 : Fin 9))).filter
            fun p => gridGet gPuzzle p ≠ 0).image (gridGet gPuzzle)) :=
  claim_C4_initial_domains gPuzzle (by decide) (by decide) _

/-- A 9×9 grid with the out-of-range entry `10` at `(0,0)`. -/
def gBad10 : List (List ℤ) :=
  [10, 0, 0, 0, 0, 0, 0, 0, 0] :: List.replicate 8 (List.replicate 9 (0 : ℤ))

/-- Witness for C10: the grid with a `10` constructs fine and the offending
cell is treated as blank. -/
theorem claim_C10_witness :
    SudokuCSP_init gBad10 = some (init_domains gBad10) ∧
    init_domains gBad10 ((0 : Fin 9), (0 : Fin 9)) =
      Finset.Icc (1 : ℤ) 9 \
        ((peers ((0 : Fin 9), (0 : Fin 9))).filter
          fun p => 1 ≤ gridGet gBad10 p ∧ gridGet gBad10 p ≤ 9).image
          (gridGet gBad10) :=
  claim_C10_out_of_range gBad10 (by decide) _ (by decide)

/-! ## The backtracking search: basic lemmas -/

theorem is_solved_iff {d : Domains} :
    is_solved d = true ↔ ∀ c : Cell, (d c).card = 1 := by
  simp only [is_solved, List.all_eq_true, beq_iff_eq]
  exact ⟨fun h c => h c (mem_cellsList c), fun h c _ => h c⟩

theorem select_some_card {d : Domains} {var : Cell}
    (h : select_unassigned_variable d = some var) : 1 < (d var).card := by
  rw [select_unassigned_variable] at h
  have hmem0 : var ∈ ((cellsList.filter fun c => decide (1 < (d c).card)).mergeSort
      fun a b => mrvKeyLe (mrvKey d a) (mrvKey d b)).head? := by
    rw [h]
    rfl
  have hmem := List.mem_of_mem_head? hmem0
  rw [List.mem_mergeSort, List.mem_filter, decide_eq_true_eq] at hmem
  exact hmem.2

theorem select_none {d : Domains}
    (h : select_unassigned_variable d = none) (c : Cell) : (d c).card ≤ 1 := by
  rw [select_unassigned_variable, List.head?_eq_none_iff] at h
  have hperm := List.mergeSort_perm
    (cellsList.filter fun c => decide (1 < (d c).card))
    (fun a b => mrvKeyLe (mrvKey d a) (mrvKey d b))
  rw [h] at hperm
  have hnil : (cellsList.filter fun c => decide (1 < (d c).card)) = [] :=
    List.eq_nil_of_length_eq_zero (by simpa using hperm.length_eq.symm)
  by_contra hc
  have hmem : c ∈ cellsList.filter fun c => decide (1 < (d c).card) := by
    rw [List.mem_filter, decide_eq_true_eq]
    exact ⟨mem_cellsList c, by omega⟩
  rw [hnil] at hmem
  exact List.not_mem_nil c hmem

theorem mem_order_domain_values {var : Cell} {d : Domains} {v : ℤ} :
    v ∈ order_domain_values var d ↔ v ∈ d var := by
  rw [order_domain_values, List.mem_mergeSort, Finset.mem_sort]

theorem forward_check_subset {value : ℤ} :
    ∀ (l : List Cell) (d nd : Domains),
      forward_check value l d = some nd → ∀ c, nd c ⊆ d c := by
  intro l
  induction l with
  | nil =>
    intro d nd h c
    rw [forward_check] at h
    rw [← Option.some.injEq d nd |>.mp h]
  | cons p rest ih =>
    intro d nd h c
    rw [forward_check] at h
    split at h
    · split at h
      · exact absurd h (by simp)
      · refine (ih _ nd h c).trans ?_
        by_cases hc : c = p
        · subst hc
          rw [Function.update_same]
          exact Finset.erase_subset _ _
        · rw [Function.update_noteq hc]
    · exact ih _ nd h c

theorem ac3_pair_subset {m : Domains} {b : Bool} {m' : Domains}
    (h : ac3 m = (b, m')) (c : Cell) : m' c ⊆ m c := by
  have := ac3LoopF_snd_subset (ac3fuel m initQueue) m initQueue c
  rw [show ac3LoopF (ac3fuel m initQueue) m initQueue = ac3 m from rfl, h] at this
  exact this

theorem assign_cases {var : Cell} {value : ℤ} {d nd : Domains}
    (h : assign_and_propagate var value d = some nd) :
    ∃ m, forward_check value (peersList var)
        (Function.update d var {value}) = some m ∧
      ac3 m = (true, nd) := by
  simp only [assign_and_propagate, deepcopy] at h
  rcases hfc : forward_check value (peersList var)
      (Function.update d var {value}) with _ | m
  · rw [hfc] at h
    simp at h
  · rw [hfc] at h
    simp only at h
    rcases hac : ac3 m with ⟨b, m'⟩
    rw [hac] at h
    cases b
    · simp at h
    · simp only [Option.some.injEq] at h
      exact ⟨m, rfl, by rw [hac, h]⟩

theorem assign_subset {var : Cell} {value : ℤ} {d nd : Domains}
    (h : assign_and_propagate var value d = some nd) (hv : value ∈ d var)
    (c : Cell) : nd c ⊆ d c := by
  obtain ⟨m, hfc, hac⟩ := assign_cases h
  refine ((ac3_pair_subset hac c).trans (forward_check_subset _ _ _ hfc c)).trans ?_
  by_cases hc : c = var
  · subst hc
    rw [Function.update_same]
    simpa using hv
  · rw [Function.update_noteq hc]

theorem assign_var_card {var : Cell} {value : ℤ} {d nd : Domains}
    (h : assign_and_propagate var value d = some nd) : (nd var).card ≤ 1 := by
  obtain ⟨m, hfc, hac⟩ := assign_cases h
  have hsub : nd var ⊆ {value} := by
    refine ((ac3_pair_subset hac var).trans
      (forward_check_subset _ _ _ hfc var)).trans ?_
    rw [Function.update_same]
  calc (nd var).card ≤ ({value} : Finset ℤ).card := Finset.card_le_card hsub
    _ = 1 := Finset.card_singleton _

theorem assign_arcConsistent {var : Cell} {value : ℤ} {d nd : Domains}
    (h : assign_and_propagate var value d = some nd) : arcConsistent nd := by
  obtain ⟨m, _, hac⟩ := assign_cases h
  have h1 : (ac3 m).1 = true := by rw [hac]
  have := ac3_success_arcConsistent h1
  rw [hac] at this
  exact this

/-! ## Counting cells through list filters -/

theorem length_filter_mono {α : Type} (l : List α) (p q : α → Bool)
    (h : ∀ a ∈ l, q a = true → p a = true) :
    (l.filter q).length ≤ (l.filter p).length := by
  induction l with
  | nil => simp
  | cons a t ih =>
    have ht : (t.filter q).length ≤ (t.filter p).length :=
      ih fun x hx => h x (List.mem_cons_of_mem _ hx)
    rw [List.filter_cons, List.filter_cons]
    by_cases hq : q a = true
    · rw [if_pos hq, if_pos (h a (List.mem_cons_self _ _) hq)]
      simpa using ht
    · rw [if_neg hq]
      split
      · exact ht.trans (by simp)
      · exact ht

theorem length_filter_lt {α : Type} (l : List α) (p q : α → Bool)
    (h : ∀ a ∈ l, q a = true → p a = true) (v : α) (hv : v ∈ l)
    (hp : p v = true) (hq : ¬ q v = true) :
    (l.filter q).length < (l.filter p).length := by
  induction l with
  | nil => exact absurd hv (List.not_mem_nil v)
  | cons a t ih =>
    have hmono : (t.filter q).length ≤ (t.filter p).length :=
      length_filter_mono t p q fun x hx => h x (List.mem_cons_of_mem _ hx)
    rw [List.filter_cons, List.filter_cons]
    rcases List.mem_cons.mp hv with rfl | hvt
    · rw [if_neg hq, if_pos hp]
      simpa using Nat.lt_succ_of_le hmono
    · have ht : (t.filter q).length < (t.filter p).length :=
        ih (fun x hx => h x (List.mem_cons_of_mem _ hx)) hvt
      by_cases hqa : q a = true
      · rw [if_pos hqa, if_pos (h a (List.mem_cons_self _ _) hqa)]
        simpa using ht
      · rw [if_neg hqa]
        split
        · exact ht.trans (by simp)
        · exact ht

theorem hardCells_le_81 (d : Domains) : hardCells d ≤ 81 := by
  rw [hardCells]
  calc (cellsList.filter _).length ≤ cellsList.length := List.length_filter_le _ _
    _ = 81 := cellsList_length

theorem assign_hardCells_lt {d : Domains} {var : Cell} {value : ℤ} {nd : Domains}
    (hsel : select_unassigned_variable d = some var)
    (hv : value ∈ order_domain_values var d)
    (h : assign_and_propagate var value d = some nd) :
    hardCells nd < hardCells d := by
  rw [hardCells, hardCells]
  refine length_filter_lt cellsList _ _ ?_ var (mem_cellsList var) ?_ ?_
  · intro c _ hc
    rw [decide_eq_true_eq] at hc ⊢
    have hle := Finset.card_le_card
      (assign_subset h (mem_order_domain_values.mp hv) c)
    omega
  · rw [decide_eq_true_eq]
    exact select_some_card hsel
  · rw [decide_eq_true_eq]
    have := assign_var_card h
    omega

/-! ## The backtracking search: unfolding and invariants -/

theorem backtrackF_succ (fuel : ℕ) (d : Domains) :
    backtrackF (fuel + 1) d =
      if is_solved d then some d
      else
        match select_unassigned_variable d with
        | none => none
        | some var =>
          tryList
            (fun v =>
              match assign_and_propagate var v d with
              | none => none
              | some nd => backtrackF fuel nd)
            (order_domain_values var d) := rfl

theorem backtrackF_of_solved {d : Domains} (hs : is_solved d = true) (fuel : ℕ) :
    backtrackF fuel d = some d := by
  cases fuel
  · rw [backtrackF, if_pos hs]
  · rw [backtrackF_succ, if_pos hs]

theorem backtrackF_of_stuck {d : Domains} (hs : ¬ is_solved d = true)
    (hsel : select_unassigned_variable d = none) (fuel : ℕ) :
    backtrackF fuel d = none := by
  cases fuel
  · rw [backtrackF, if_neg hs]
  · rw [backtrackF_succ, if_neg hs, hsel]

theorem tryList_eq_some {f : ℤ → Option Domains} :
    ∀ {l : List ℤ} {r : Domains}, tryList f l = some r → ∃ v ∈ l, f v = some r := by
  intro l
  induction l with
  | nil =>
    intro r h
    rw [tryList] at h
    simp at h
  | cons v rest ih =>
    intro r h
    rw [tryList] at h
    rcases hfv : f v with _ | r'
    · rw [hfv] at h
      obtain ⟨w, hw, hfw⟩ := ih h
      exact ⟨w, List.mem_cons_of_mem _ hw, hfw⟩
    · rw [hfv] at h
      simp only [Option.some.injEq] at h
      exact ⟨v, List.mem_cons_self _ _, by rw [hfv, h]⟩

theorem tryList_congr {f₁ f₂ : ℤ → Option Domains} :
    ∀ {l : List ℤ}, (∀ v ∈ l, f₁ v = f₂ v) → tryList f₁ l = tryList f₂ l := by
  intro l
  induction l with
  | nil =>
    intro _
    rfl
  | cons v rest ih =>
    intro h
    rw [tryList, tryList, h v (List.mem_cons_self _ _)]
    cases hf : f₂ v
    · exact ih fun w hw => h w (List.mem_cons_of_mem _ hw)
    · rfl

theorem backtrackF_solved_out :
    ∀ (fuel : ℕ) (d r : Domains), backtrackF fuel d = some r →
      is_solved r = true := by
  intro fuel
  induction fuel with
  | zero =>
    intro d r h
    rw [backtrackF] at h
    split at h
    · next hs =>
      simp only [Option.some.injEq] at h
      rw [← h]
      exact hs
    · simp at h
  | succ n ih =>
    intro d r h
    rw [backtrackF_succ] at h
    split at h
    · next hs =>
      simp only [Option.some.injEq] at h
      rw [← h]
      exact hs
    · rcases hsel : select_unassigned_variable d with _ | var
      · rw [hsel] at h
        simp at h
      · rw [hsel] at h
        obtain ⟨v, _, hfv⟩ := tryList_eq_some h
        rcases hasn : assign_and_propagate var v d with _ | nd
        · rw [hasn] at hfv
          simp at hfv
        · rw [hasn] at hfv
          exact ih nd r hfv

theorem backtrackF_subset_out :
    ∀ (fuel : ℕ) (d r : Domains), backtrackF fuel d = some r →
      ∀ c, r c ⊆ d c := by
  intro fuel
  induction fuel with
  | zero =>
    intro d r h c
    rw [backtrackF] at h
    split at h
    · simp only [Option.some.injEq] at h
      rw [← h]
    · simp at h
  | succ n ih =>
    intro d r h c
    rw [backtrackF_succ] at h
    split at h
    · simp only [Option.some.injEq] at h
      rw [← h]
    · rcases hsel : select_unassigned_variable d with _ | var
      · rw [hsel] at h
        simp at h
      · rw [hsel] at h
        obtain ⟨v, hv, hfv⟩ := tryList_eq_some h
        rcases hasn : assign_and_propagate var v d with _ | nd
        · rw [hasn] at hfv
          simp at hfv
        · rw [hasn] at hfv
          exact (ih nd r hfv c).trans
            (assign_subset hasn (mem_order_domain_values.mp hv) c)

theorem backtrackF_arcConsistent_out :
    ∀ (fuel : ℕ) (d r : Domains), arcConsistent d →
      backtrackF fuel d = some r → arcConsistent r := by
  intro fuel
  induction fuel with
  | zero =>
    intro d r hac h
    rw [backtrackF] at h
    split at h
    · simp only [Option.some.injEq] at h
      rw [← h]
      exact hac
    · simp at h
  | succ n ih =>
    intro d r hac h
    rw [backtrackF_succ] at h
    split at h
    · simp only [Option.some.injEq] at h
      rw [← h]
      exact hac
    · rcases hsel : select_unassigned_variable d with _ | var
      · rw [hsel] at h
        simp at h
      · rw [hsel] at h
        obtain ⟨v, _, hfv⟩ := tryList_eq_some h
        rcases hasn : assign_and_propagate var v d with _ | nd
        · rw [hasn] at hfv
          simp at hfv
        · rw [hasn] at hfv
          exact ih nd r (assign_arcConsistent hasn) hfv

theorem backtrackF_stable :
    ∀ (f : ℕ), ∀ (g : ℕ) (d : Domains), hardCells d ≤ f → hardCells d ≤ g →
      backtrackF f d = backtrackF g d := by
  intro f
  induction f using Nat.strong_induction_on with
  | _ f ih =>
    intro g d hf hg
    by_cases hs : is_solved d = true
    · rw [backtrackF_of_solved hs, backtrackF_of_solved hs]
    · rcases hsel : select_unassigned_variable d with _ | var
      · rw [backtrackF_of_stuck hs hsel, backtrackF_of_stuck hs hsel]
      · have hpos : 1 ≤ hardCells d := by
          rw [hardCells]
          have hmem : var ∈ cellsList.filter fun c => decide (1 < (d c).card) := by
            rw [List.mem_filter, decide_eq_true_eq]
            exact ⟨mem_cellsList var, select_some_card hsel⟩
          have := List.length_pos.mpr (List.ne_nil_of_mem hmem)
          omega
        match f, g with
        | 0, _ => omega
        | _ + 1, 0 => omega
        | f' + 1, g' + 1 =>
          rw [backtrackF_succ, backtrackF_succ, if_neg hs, if_neg hs, hsel]
          refine tryList_congr fun v hv => ?_
          rcases hasn : assign_and_propagate var v d with _ | nd
          · rfl
          · have hlt : hardCells nd < hardCells d :=
              assign_hardCells_lt hsel hv hasn
            exact ih f' (by omega) g' nd (by omega) (by omega)

/-- C9: the backtracking recursion needs depth at most 81: any fuel of at
least 81 (more generally, at least the number of cells with more than one
candidate, which never exceeds 81) produces the same result, because each
recursive call is made on an assignment in which the selected variable has
been forced to at most one candidate and no other domain has grown. -/
theorem claim_C9_backtrack_depth (d : Domains) (fuel : ℕ) (h : 81 ≤ fuel) :
    backtrackF fuel d = backtrack d ∧ hardCells d ≤ 81 :=
  ⟨by
    rw [backtrack]
    exact backtrackF_stable fuel 81 d ((hardCells_le_81 d).trans h)
      (hardCells_le_81 d),
    hardCells_le_81 d⟩

/-- Witness for C9 at a concrete assignment and fuel. -/
theorem claim_C9_witness :
    backtrackF 81 exConst = backtrack exConst ∧ hardCells exConst ≤ 81 :=
  claim_C9_backtrack_depth exConst 81 (by decide)

/-! ## From a successful solve to a valid Sudoku grid -/

theorem init_domains_subset_Icc (g : List (List ℤ)) (c : Cell) :
    init_domains g c ⊆ Finset.Icc (1 : ℤ) 9 := by
  simp only [init_domains]
  split
  · next h =>
    rw [Finset.singleton_subset_iff, Finset.mem_Icc]
    exact ⟨h.2.1, h.2.2⟩
  · exact Finset.sdiff_subset

theorem init_domains_clue {g : List (List ℤ)} {c : Cell}
    (hv : 1 ≤ gridGet g c ∧ gridGet g c ≤ 9) :
    init_domains g c = {gridGet g c} := by
  simp only [init_domains]
  rw [if_pos ⟨by omega, hv⟩]

theorem gridOfSol_singleton {sol : Domains} {c : Cell} {v : ℤ}
    (h : sol c = {v}) : gridOfSol sol c = v := by
  simp only [gridOfSol]
  rw [h, if_pos (Finset.card_singleton v), Finset.sort_singleton]
  rfl

/-- Unpacking `solve g = some grid` for a well-formed grid: the grid is read
off a final assignment that is fully singleton, arc-consistent, and pointwise
below the initial domains. -/
theorem solve_some_spec {g : List (List ℤ)} {grid : Cell → ℤ}
    (hok : gridOk g = true) (hs : solve g = some grid) :
    ∃ sol : Domains, is_solved sol = true ∧ arcConsistent sol ∧
      (∀ c, sol c ⊆ init_domains g c) ∧ grid = gridOfSol sol := by
  rw [solve, SudokuCSP_init, if_pos hok] at hs
  simp only at hs
  rw [solveD] at hs
  rcases hac : ac3 (deepcopy (init_domains g)) with ⟨b, d1⟩
  rw [hac] at hs
  cases b
  · simp at hs
  · simp only at hs
    rcases hbt : backtrack d1 with _ | sol
    · rw [hbt] at hs
      simp at hs
    · rw [hbt] at hs
      simp only [Option.some.injEq] at hs
      rw [backtrack] at hbt
      have hac1 : arcConsistent d1 := by
        have h1 : (ac3 (deepcopy (init_domains g))).1 = true := by rw [hac]
        have := ac3_success_arcConsistent h1
        rw [hac] at this
        exact this
      refine ⟨sol, backtrackF_solved_out 81 d1 sol hbt,
        backtrackF_arcConsistent_out 81 d1 sol hac1 hbt, fun c => ?_, hs.symm⟩
      exact (backtrackF_subset_out 81 d1 sol hbt c).trans (ac3_pair_subset hac c)

theorem sol_singleton {sol : Domains} (hsolved : is_solved sol = true)
    (c : Cell) : ∃ v, sol c = {v} ∧ gridOfSol sol c = v := by
  obtain ⟨v, hv⟩ := Finset.card_eq_one.mp (is_solved_iff.mp hsolved c)
  exact ⟨v, hv, gridOfSol_singleton hv⟩

theorem sol_peers_ne {sol : Domains} (hsolved : is_solved sol = true)
    (hac : arcConsistent sol) {a b : Cell} (hp : isPeer a b = true) :
    gridOfSol sol a ≠ gridOfSol sol b := by
  obtain ⟨va, hva, hga⟩ := sol_singleton hsolved a
  obtain ⟨vb, hvb, hgb⟩ := sol_singleton hsolved b
  rw [hga, hgb]
  rintro rfl
  refine hac b a hp ⟨va, ?_, hva⟩
  rw [hvb]
  exact Finset.mem_singleton_self va

/-- In any 9-cell unit of pairwise peers, a solved arc-consistent assignment
hits each value of 1..9 exactly once. -/
theorem unit_exactly_once {sol : Domains} (hsolved : is_solved sol = true)
    (hac : arcConsistent sol) (hrange : ∀ c : Cell, sol c ⊆ Finset.Icc (1 : ℤ) 9)
    (S : Finset Cell) (hcard : S.card = 9)
    (hpeer : ∀ a ∈ S, ∀ b ∈ S, a ≠ b → isPeer a b = true) :
    ∀ v ∈ Finset.Icc (1 : ℤ) 9,
      (S.filter fun c => gridOfSol sol c = v).card = 1 := by
  have hinj : Set.InjOn (gridOfSol sol) S := by
    intro a ha b hb hfab
    by_contra hne
    exact sol_peers_ne hsolved hac (hpeer a ha b hb hne) hfab
  have hmemIcc : ∀ c ∈ S, gridOfSol sol c ∈ Finset.Icc (1 : ℤ) 9 := by
    intro c _
    obtain ⟨v, hv, hg⟩ := sol_singleton hsolved c
    rw [hg]
    refine hrange c ?_
    rw [hv]
    exact Finset.mem_singleton_self v
  have hsub : S.image (gridOfSol sol) ⊆ Finset.Icc (1 : ℤ) 9 := by
    intro x hx
    obtain ⟨c, hc, rfl⟩ := Finset.mem_image.mp hx
    exact hmemIcc c hc
  have hIccCard : (Finset.Icc (1 : ℤ) 9).card = 9 := by
    rw [Int.card_Icc]
    rfl
  have himg : S.image (gridOfSol sol) = Finset.Icc (1 : ℤ) 9 := by
    refine Finset.eq_of_subset_of_card_le hsub ?_
    rw [hIccCard, Finset.card_image_of_injOn hinj, hcard]
  intro v hv
  rw [← himg] at hv
  obtain ⟨c, hc, hcv⟩ := Finset.mem_image.mp hv
  rw [Finset.card_eq_one]
  refine ⟨c, ?_⟩
  ext x
  rw [Finset.mem_filter, Finset.mem_singleton]
  constructor
  · rintro ⟨hx, hxv⟩
    exact hinj hx hc (hxv.trans hcv.symm)
  · rintro rfl
    exact ⟨hc, hcv⟩

theorem row_card :
    ∀ r : Fin 9, ((Finset.univ : Finset Cell).filter fun c => c.1 = r).card = 9 := by
  decide

theorem col_card :
    ∀ k : Fin 9, ((Finset.univ : Finset Cell).filter fun c => c.2 = k).card = 9 := by
  decide

theorem box_card :
    ∀ br bc : Fin 3,
      ((Finset.univ : Finset Cell).filter fun c =>
        (c.1 : ℕ) / 3 = (br : ℕ) ∧ (c.2 : ℕ) / 3 = (bc : ℕ)).card = 9 := by
  decide

/-- The output contract of `solve`: every cell holds a value 1..9, and every
row, column and 3×3 box takes each value of 1..9 exactly once. -/
def validSolution (grid : Cell → ℤ) : Prop :=
  (∀ c : Cell, grid c ∈ Finset.Icc (1 : ℤ) 9) ∧
  (∀ r : Fin 9, ∀ v ∈ Finset.Icc (1 : ℤ) 9,
    (((Finset.univ : Finset Cell).filter fun c => c.1 = r).filter
      fun c => grid c = v).card = 1) ∧
  (∀ k : Fin 9, ∀ v ∈ Finset.Icc (1 : ℤ) 9,
    (((Finset.univ : Finset Cell).filter fun c => c.2 = k).filter
      fun c => grid c = v).card = 1) ∧
  (∀ br bc : Fin 3, ∀ v ∈ Finset.Icc (1 : ℤ) 9,
    (((Finset.univ : Finset Cell).filter fun c =>
        (c.1 : ℕ) / 3 = (br : ℕ) ∧ (c.2 : ℕ) / 3 = (bc : ℕ)).filter
      fun c => grid c = v).card = 1)

/-- C1: on every 9×9 grid with entries 0..9, when `solve` returns a grid it
is a complete valid Sudoku solution — all 81 cells hold 1..9 and every row,
column and box contains each of 1..9 exactly once.  (`solve` is a total
function into `Option`, so the "no solution" case is the `none` signal and
no exception is possible.) -/
theorem claim_C1_solve_valid (g : List (List ℤ)) (hok : gridOk g = true)
    (hrange : ∀ c : Cell, 0 ≤ gridGet g c ∧ gridGet g c ≤ 9)
    (grid : Cell → ℤ) (hs : solve g = some grid) :
    validSolution grid := by
  obtain ⟨sol, hsolved, hac, hsub, rfl⟩ := solve_some_spec hok hs
  have hr : ∀ c : Cell, sol c ⊆ Finset.Icc (1 : ℤ) 9 :=
    fun c => (hsub c).trans (init_domains_subset_Icc g c)
  refine ⟨?_, ?_, ?_, ?_⟩
  · intro c
    obtain ⟨v, hv, hg⟩ := sol_singleton hsolved c
    rw [hg]
    exact hr c (by rw [hv]; exact Finset.mem_singleton_self v)
  · intro r v hv
    refine unit_exactly_once hsolved hac hr _ (row_card r) ?_ v hv
    intro a ha b hb hne
    rw [Finset.mem_filter] at ha hb
    simp only [isPeer, decide_eq_true_eq]
    exact ⟨hne, Or.inl (ha.2.trans hb.2.symm)⟩
  · intro k v hv
    refine unit_exactly_once hsolved hac hr _ (col_card k) ?_ v hv
    intro a ha b hb hne
    rw [Finset.mem_filter] at ha hb
    simp only [isPeer, decide_eq_true_eq]
    exact ⟨hne, Or.inr (Or.inl (ha.2.trans hb.2.symm))⟩
  · intro br bc v hv
    refine unit_exactly_once hsolved hac hr _ (box_card br bc) ?_ v hv
    intro a ha b hb hne
    rw [Finset.mem_filter] at ha hb
    simp only [isPeer, decide_eq_true_eq]
    exact ⟨hne, Or.inr (Or.inr
      ⟨ha.2.1.trans hb.2.1.symm, ha.2.2.trans hb.2.2.symm⟩)⟩

/-- C2: on every 9×9 grid with entries 0..9 on which `solve` returns a grid,
each clue cell (value 1..9 in the input) holds exactly its clue in the
output; its domain is initialized to the singleton of the clue, and the
final assignment still holds that singleton. -/
theorem claim_C2_clue_fidelity (g : List (List ℤ)) (hok : gridOk g = true)
    (hrange : ∀ c : Cell, 0 ≤ gridGet g c ∧ gridGet g c ≤ 9)
    (grid : Cell → ℤ) (hs : solve g = some grid) (c : Cell)
    (hv : 1 ≤ gridGet g c ∧ gridGet g c ≤ 9) :
    grid c = gridGet g c ∧ init_domains g c = {gridGet g c} := by
  obtain ⟨sol, hsolved, _, hsub, rfl⟩ := solve_some_spec hok hs
  have hclue : init_domains g c = {gridGet g c} := init_domains_clue hv
  have hsubc : sol c ⊆ {gridGet g c} := by
    rw [← hclue]
    exact hsub c
  obtain ⟨v, hvs, hg⟩ := sol_singleton hsolved c
  have hmem : v ∈ ({gridGet g c} : Finset ℤ) := by
    refine hsubc ?_
    rw [hvs]
    exact Finset.mem_singleton_self v
  rw [Finset.mem_singleton] at hmem
  exact ⟨by rw [hg, hmem], hclue⟩

/-- A fully solved valid grid; on it `solve` succeeds immediately (the
initial domains are already singleton and consistent). -/
def g0 : List (List ℤ) :=
  [[1, 2, 3, 4, 5, 6, 7, 8, 9],
   [4, 5, 6, 7, 8, 9, 1, 2, 3],
   [7, 8, 9, 1, 2, 3, 4, 5, 6],
   [2, 3, 4, 5, 6, 7, 8, 9, 1],
   [5, 6, 7, 8, 9, 1, 2, 3, 4],
   [8, 9, 1, 2, 3, 4, 5, 6, 7],
   [3, 4, 5, 6, 7, 8, 9, 1, 2],
   [6, 7, 8, 9, 1, 2, 3, 4, 5],
   [9, 1, 2, 3, 4, 5, 6, 7, 8]]

theorem solve_g0_isSome : (solve g0).isSome = true := by decide

/-- Witness for C1: `solve` on the concrete grid `g0` returns a valid
solution. -/
theorem claim_C1_witness : validSolution ((solve g0).get solve_g0_isSome) :=
  claim_C1_solve_valid g0 (by decide) (by decide)
    ((solve g0).get solve_g0_isSome) (Option.some_get solve_g0_isSome).symm

/-- Witness for C2 at the clue cell `(0,0)` of `g0`. -/
theorem claim_C2_witness :
    (solve g0).get solve_g0_isSome ((0 : Fin 9), (0 : Fin 9)) =
        gridGet g0 ((0 : Fin 9), (0 : Fin 9)) ∧
      init_domains g0 ((0 : Fin 9), (0 : Fin 9)) =
        {gridGet g0 ((0 : Fin 9), (0 : Fin 9))} :=
  claim_C2_clue_fidelity g0 (by decide) (by decide)
    ((solve g0).get solve_g0_isSome) (Option.some_get solve_g0_isSome).symm
    _ (by decide)
